import Mathlib

/-!
Verification of the Currency fixed-point monetary value type
(src/common/src/models/currency.rs).

The Rust code is shallowly embedded as follows:
- the backing i32 is an Int; the i32 range is stated explicitly where it
  matters, and release-mode wrap-around arithmetic is the function wrap32;
- strings are lists of Char; Rust str::trim and the regex classes \s and \d
  are modelled over the ASCII whitespace characters and ASCII digits;
- fallible operations return Option or Except.
-/

namespace LaggIT

/-- Smallest value of the Rust i32 type. -/
def i32min : Int := -2147483648

/-- Largest value of the Rust i32 type. -/
def i32max : Int := 2147483647

/-- Two's-complement wrap-around into the i32 range; models the result of
Rust's built-in i32 +, - and unary - in release mode. -/
def wrap32 (n : Int) : Int := (n + 2147483648) % 4294967296 - 2147483648

/-- The value fits in an i32. -/
def inRange (n : Int) : Prop := i32min ≤ n ∧ n ≤ i32max

instance : DecidablePred inRange := fun n => by unfold inRange; infer_instance

/-- struct Currency(i32): a number with two decimals of precision,
internally represented as an i32. -/
structure Currency where
  val : Int
deriving DecidableEq

/-- impl Add for Currency: Currency(self.0 + other.0). -/
def Currency.add (a b : Currency) : Currency := ⟨wrap32 (a.val + b.val)⟩

/-- impl AddAssign for Currency: self.0 += other.0 (the resulting target value). -/
def Currency.add_assign (a b : Currency) : Currency := ⟨wrap32 (a.val + b.val)⟩

/-- impl Sub for Currency: Currency(self.0 - other.0). -/
def Currency.sub (a b : Currency) : Currency := ⟨wrap32 (a.val - b.val)⟩

/-- impl SubAssign for Currency: self.0 -= other.0 (the resulting target value). -/
def Currency.sub_assign (a b : Currency) : Currency := ⟨wrap32 (a.val - b.val)⟩

/-- impl Neg for Currency: Currency(-self.0). -/
def Currency.neg (a : Currency) : Currency := ⟨wrap32 (-a.val)⟩

/-- Currency::fractional: self.0 % 100 (Rust % truncates toward zero). -/
def Currency.fractional (c : Currency) : Int := c.val.tmod 100

/-- Currency::whole: self.0 / 100 (Rust / truncates toward zero). -/
def Currency.whole (c : Currency) : Int := c.val.tdiv 100

/-- The strict order of the derived Ord instance on the single-field struct:
the order of the backing integer. -/
def Currency.lt (a b : Currency) : Prop := a.val < b.val

/-- ASCII whitespace, modelling Rust str::trim and the regex class \s. -/
def wsChar (c : Char) : Bool := c = ' ' || c = '\t' || c = '\r' || c = '\n'

/-- ASCII decimal digit, modelling the regex class \d. -/
def isDigitCh (c : Char) : Bool := 48 ≤ c.toNat && c.toNat ≤ 57

/-- Numeric value of an ASCII digit character. -/
def charVal (c : Char) : Nat := c.toNat - 48

/-- The ASCII digit character for a value below ten. -/
def digitChar (d : Nat) : Char := Char.ofNat (48 + d)

/-- Decimal digits of a natural number, most significant first; fuel-indexed
so that it is structurally recursive. -/
def natDigitsAux : Nat → Nat → List Char
  | 0, _ => []
  | fuel + 1, n => if n < 10 then [digitChar n] else natDigitsAux fuel (n / 10) ++ [digitChar (n % 10)]

/-- Decimal digits of a natural number, as written by Rust's {} formatting
of a non-negative integer. -/
def natDigits (n : Nat) : List Char := natDigitsAux (n + 1) n

/-- Rust {:02} formatting of a value: zero-padded to at least two digits. -/
def fmt02 (n : Nat) : List Char := if n < 10 then '0' :: natDigits n else natDigits n

/-- impl Display for Currency: a leading '-' when the value is negative, then
abs(whole), then, when the fractional part is non-zero, '.' and the absolute
fractional value zero-padded to two digits. -/
def Currency.fmt (c : Currency) : List Char :=
  (if c.val < 0 then ['-'] else []) ++ natDigits c.whole.natAbs ++
    (if c.fractional ≠ 0 then '.' :: fmt02 c.fractional.natAbs else [])

/-- enum CurrencyParseError. -/
inductive CurrencyParseError where
  | FracGreaterThan99
  | MatchFailed
  | IntegerOverflow
deriving DecidableEq

/-- Value denoted by a list of decimal digits. -/
def digitsVal (l : List Char) : Nat := l.foldl (fun a c => a * 10 + charVal c) 0

/-- Rust str::parse::<i32> restricted to the regex captures fed to it: a
non-empty all-digit string parses to its value unless that value exceeds
i32::MAX. -/
def parse_i32 (l : List Char) : Option Int :=
  if l ≠ [] ∧ l.all isDigitCh = true then
    if (digitsVal l : Int) ≤ i32max then some (digitsVal l) else none
  else none

/-- i32 checked arithmetic: the mathematical result if it is representable. -/
def checked_i32 (n : Int) : Option Int := if i32min ≤ n ∧ n ≤ i32max then some n else none

/-- str::trim over ASCII whitespace. -/
def trim (l : List Char) : List Char := ((l.dropWhile wsChar).reverse.dropWhile wsChar).reverse

/-- The optional leading '-' of the regex group (?P<neg>-)?. -/
def negSplit (t : List Char) : Bool × List Char :=
  match t with
  | [] => (false, [])
  | c :: r => if c = '-' then (true, r) else (false, c :: r)

/-- Anchored match of the regex (-)?\s*?(\d+)(\.(\d+))? returning the neg flag
and the whole/frac captures.  Because digits, whitespace, '-' and '.' are
disjoint character classes the regex match is deterministic and equals this
function. -/
def matchCurrency (t : List Char) : Option (Bool × List Char × Option (List Char)) :=
  if ((negSplit t).2.dropWhile wsChar).takeWhile isDigitCh = [] then none
  else
    match ((negSplit t).2.dropWhile wsChar).dropWhile isDigitCh with
    | [] => some ((negSplit t).1, ((negSplit t).2.dropWhile wsChar).takeWhile isDigitCh, none)
    | '.' :: fr =>
      if fr ≠ [] ∧ fr.all isDigitCh = true then
        some ((negSplit t).1, ((negSplit t).2.dropWhile wsChar).takeWhile isDigitCh, some fr)
      else none
    | _ => none

/-- Lines 128-141 of from_str: default the missing fraction capture to "00",
parse it (overflow reported as IntegerOverflow), scale a one-digit fraction
by ten, and require the result to lie in 0..100. -/
def scaledFrac (frS : Option (List Char)) : Except CurrencyParseError Int :=
  let frac_s := frS.getD ['0', '0']
  match parse_i32 frac_s with
  | none => .error .IntegerOverflow
  | some f0 =>
    let frac := if frac_s.length = 1 then f0 * 10 else f0
    if ¬ (0 ≤ frac ∧ frac < 100) then .error .FracGreaterThan99 else .ok frac

/-- Lines 143-147 of from_str: whole.checked_mul(100), .checked_add(frac),
then .checked_mul(-1) when the neg flag was captured. -/
def combineNum (neg : Bool) (whole frac : Int) : Option Int :=
  (checked_i32 (whole * 100)).bind fun n =>
    (checked_i32 (n + frac)).bind fun m =>
      if neg then checked_i32 (-m) else some m

/-- impl FromStr for Currency. -/
def Currency.from_str (s : List Char) : Except CurrencyParseError Currency :=
  match matchCurrency (trim s) with
  | none => .error .MatchFailed
  | some (neg, wS, frS) =>
    match parse_i32 wS with
    | none => .error .IntegerOverflow
    | some whole =>
      match scaledFrac frS with
      | .error e => .error e
      | .ok frac =>
        match combineNum neg whole frac with
        | none => .error .IntegerOverflow
        | some num => .ok ⟨num⟩

/-- The shape a trimmed string must have for the parse to get past the regex:
an optional '-', an optional whitespace run, one or more digits, and
optionally '.' followed by one or more digits. -/
def grammarOk (t : List Char) : Prop :=
  ∃ sgn ws ds fr, t = sgn ++ ws ++ ds ++ fr ∧
    (sgn = [] ∨ sgn = ['-']) ∧ (∀ c ∈ ws, wsChar c = true) ∧
    ds ≠ [] ∧ (∀ c ∈ ds, isDigitCh c = true) ∧
    (fr = [] ∨ ∃ es, fr = '.' :: es ∧ es ≠ [] ∧ ∀ c ∈ es, isDigitCh c = true)

instance : DecidableEq (Except CurrencyParseError Currency) := fun a b =>
  match a, b with
  | .ok x, .ok y =>
    if h : x = y then isTrue (by rw [h]) else isFalse (by intro hc; cases hc; exact h rfl)
  | .error x, .error y =>
    if h : x = y then isTrue (by rw [h]) else isFalse (by intro hc; cases hc; exact h rfl)
  | .ok _, .error _ => isFalse (by intro hc; cases hc)
  | .error _, .ok _ => isFalse (by intro hc; cases hc)

instance (a b : Currency) : Decidable (Currency.lt a b) := by
  unfold Currency.lt; infer_instance

/-! ### Character class facts -/

lemma isDigitCh_not_ws {c : Char} (h : isDigitCh c = true) : wsChar c = false := by
  cases hw : wsChar c with
  | false => rfl
  | true =>
    exfalso
    have hc := hw
    simp only [wsChar, Bool.or_eq_true, decide_eq_true_eq] at hc
    rcases hc with ((rfl | rfl) | rfl) | rfl <;> exact absurd h (by decide)

lemma isDigitCh_ne_dash {c : Char} (h : isDigitCh c = true) : c ≠ '-' := by
  rintro rfl; exact absurd h (by decide)

lemma isDigitCh_ne_dot {c : Char} (h : isDigitCh c = true) : c ≠ '.' := by
  rintro rfl; exact absurd h (by decide)

lemma isDigitCh_toNat {c : Char} (h : isDigitCh c = true) : 48 ≤ c.toNat ∧ c.toNat ≤ 57 := by
  simpa [isDigitCh, Bool.and_eq_true, decide_eq_true_eq] using h

lemma charVal_lt_ten {c : Char} (h : isDigitCh c = true) : charVal c < 10 := by
  have := isDigitCh_toNat h
  unfold charVal; omega

lemma digitChar_isDigit {d : Nat} (h : d < 10) : isDigitCh (digitChar d) = true := by
  interval_cases d <;> decide

lemma charVal_digitChar {d : Nat} (h : d < 10) : charVal (digitChar d) = d := by
  interval_cases d <;> decide

/-! ### List helper lemmas -/

lemma takeWhile_append_all {p : Char → Bool} {l1 : List Char} (l2 : List Char)
    (h : ∀ c ∈ l1, p c = true) : (l1 ++ l2).takeWhile p = l1 ++ l2.takeWhile p := by
  induction l1 with
  | nil => simp
  | cons a t ih =>
    have ha : p a = true := h a (List.mem_cons_self a t)
    simp only [List.cons_append, List.takeWhile_cons, ha, if_true]
    rw [ih fun c hc => h c (List.mem_cons_of_mem a hc)]

lemma dropWhile_append_all {p : Char → Bool} {l1 : List Char} (l2 : List Char)
    (h : ∀ c ∈ l1, p c = true) : (l1 ++ l2).dropWhile p = l2.dropWhile p := by
  induction l1 with
  | nil => simp
  | cons a t ih =>
    have ha : p a = true := h a (List.mem_cons_self a t)
    simp only [List.cons_append, List.dropWhile_cons, ha, if_true]
    exact ih fun c hc => h c (List.mem_cons_of_mem a hc)

lemma dropWhile_all_false {p : Char → Bool} {l : List Char} (h : ∀ c ∈ l, p c = false) :
    l.dropWhile p = l := by
  cases l with
  | nil => rfl
  | cons a t =>
    have := h a (List.mem_cons_self a t)
    simp [List.dropWhile_cons, this]

lemma trim_eq_self {l : List Char} (h : ∀ c ∈ l, wsChar c = false) : trim l = l := by
  unfold trim
  rw [dropWhile_all_false h, dropWhile_all_false fun c hc => h c (List.mem_reverse.mp hc),
    List.reverse_reverse]

/-! ### Decimal digit strings -/

lemma digitsVal_snoc (l : List Char) (c : Char) :
    digitsVal (l ++ [c]) = digitsVal l * 10 + charVal c := by
  unfold digitsVal
  rw [List.foldl_append]
  rfl

lemma digitsVal_cons_zero (l : List Char) : digitsVal ('0' :: l) = digitsVal l := by
  unfold digitsVal
  have h0 : (0 * 10 + charVal '0') = 0 := by decide
  rw [List.foldl_cons, h0]

lemma natDigitsAux_spec : ∀ fuel n : Nat, n < 10 ^ (fuel + 1) →
    (∀ c ∈ natDigitsAux (fuel + 1) n, isDigitCh c = true) ∧
      natDigitsAux (fuel + 1) n ≠ [] ∧ digitsVal (natDigitsAux (fuel + 1) n) = n := by
  intro fuel
  induction fuel with
  | zero =>
    intro n hn
    have h10 : n < 10 := by simpa using hn
    have he : natDigitsAux 1 n = [digitChar n] := by
      simp [natDigitsAux, h10]
    rw [he]
    refine ⟨?_, by simp, ?_⟩
    · intro c hc
      rw [List.mem_singleton] at hc
      subst hc
      exact digitChar_isDigit h10
    · show digitsVal ([] ++ [digitChar n]) = n
      rw [digitsVal_snoc]
      simp [digitsVal, charVal_digitChar h10]
  | succ f ih =>
    intro n hn
    by_cases h10 : n < 10
    · have he : natDigitsAux (f + 1 + 1) n = [digitChar n] := by
        simp [natDigitsAux, h10]
      rw [he]
      refine ⟨?_, by simp, ?_⟩
      · intro c hc
        rw [List.mem_singleton] at hc
        subst hc
        exact digitChar_isDigit h10
      · show digitsVal ([] ++ [digitChar n]) = n
        rw [digitsVal_snoc]
        simp [digitsVal, charVal_digitChar h10]
    · have he : natDigitsAux (f + 1 + 1) n =
          natDigitsAux (f + 1) (n / 10) ++ [digitChar (n % 10)] := by
        simp [natDigitsAux, h10]
      have hrec : n / 10 < 10 ^ (f + 1) := by
        rw [Nat.div_lt_iff_lt_mul (by norm_num)]
        calc n < 10 ^ (f + 1 + 1) := hn
        _ = 10 ^ (f + 1) * 10 := by ring
      obtain ⟨ha, hb, hc⟩ := ih (n / 10) hrec
      rw [he]
      have hm : n % 10 < 10 := Nat.mod_lt n (by norm_num)
      refine ⟨?_, by simp, ?_⟩
      · intro c hcm
        rw [List.mem_append] at hcm
        rcases hcm with hcm | hcm
        · exact ha c hcm
        · rw [List.mem_singleton] at hcm
          subst hcm
          exact digitChar_isDigit hm
      · rw [digitsVal_snoc, hc, charVal_digitChar hm]
        omega

lemma lt_pow_self_succ (n : Nat) : n < 10 ^ (n + 1) :=
  lt_of_lt_of_le (Nat.lt_pow_self (by norm_num) n)
    (Nat.pow_le_pow_right (by norm_num) (Nat.le_succ n))

lemma natDigits_spec (n : Nat) :
    (∀ c ∈ natDigits n, isDigitCh c = true) ∧
      natDigits n ≠ [] ∧ digitsVal (natDigits n) = n :=
  natDigitsAux_spec n n (lt_pow_self_succ n)

lemma natDigitsAux_congr : ∀ f1 f2 n : Nat, n < 10 ^ (f1 + 1) → n < 10 ^ (f2 + 1) →
    natDigitsAux (f1 + 1) n = natDigitsAux (f2 + 1) n := by
  intro f1
  induction f1 with
  | zero =>
    intro f2 n h1 _
    have h10 : n < 10 := by simpa using h1
    simp [natDigitsAux, h10]
  | succ f ih =>
    intro f2 n h1 h2
    by_cases h10 : n < 10
    · simp [natDigitsAux, h10]
    · cases f2 with
      | zero =>
        exfalso
        have : n < 10 := by simpa using h2
        exact h10 this
      | succ f2' =>
        have hr1 : n / 10 < 10 ^ (f + 1) := by
          rw [Nat.div_lt_iff_lt_mul (by norm_num)]
          calc n < 10 ^ (f + 1 + 1) := h1
          _ = 10 ^ (f + 1) * 10 := by ring
        have hr2 : n / 10 < 10 ^ (f2' + 1) := by
          rw [Nat.div_lt_iff_lt_mul (by norm_num)]
          calc n < 10 ^ (f2' + 1 + 1) := h2
          _ = 10 ^ (f2' + 1) * 10 := by ring
        have e1 : natDigitsAux (f + 1 + 1) n =
            natDigitsAux (f + 1) (n / 10) ++ [digitChar (n % 10)] := by
          simp [natDigitsAux, h10]
        have e2 : natDigitsAux (f2' + 1 + 1) n =
            natDigitsAux (f2' + 1) (n / 10) ++ [digitChar (n % 10)] := by
          simp [natDigitsAux, h10]
        rw [e1, e2, ih f2' (n / 10) hr1 hr2]

lemma natDigits_eq_fuel (f n : Nat) (h : n < 10 ^ (f + 1)) :
    natDigits n = natDigitsAux (f + 1) n :=
  natDigitsAux_congr n f n (lt_pow_self_succ n) h

lemma natDigits_one_digit {n : Nat} (h : n < 10) : natDigits n = [digitChar n] := by
  show natDigitsAux (n + 1) n = _
  simp [natDigitsAux, h]

lemma fmt02_spec (n : Nat) (h : n < 100) :
    (∀ c ∈ fmt02 n, isDigitCh c = true) ∧ fmt02 n ≠ [] ∧
      digitsVal (fmt02 n) = n ∧ (fmt02 n).length = 2 := by
  obtain ⟨hd, hn, hv⟩ := natDigits_spec n
  by_cases h10 : n < 10
  · have he : fmt02 n = '0' :: natDigits n := by simp [fmt02, h10]
    rw [he]
    refine ⟨?_, by simp, ?_, ?_⟩
    · intro c hc
      rw [List.mem_cons] at hc
      rcases hc with rfl | hc
      · decide
      · exact hd c hc
    · rw [digitsVal_cons_zero]; exact hv
    · rw [natDigits_one_digit h10]; rfl
  · have he : fmt02 n = natDigits n := by simp [fmt02, h10]
    have h2 : natDigits n = [digitChar (n / 10), digitChar (n % 10)] := by
      rw [natDigits_eq_fuel 1 n (by simpa using h)]
      have hnd : n / 10 < 10 := by omega
      simp [natDigitsAux, h10, hnd]
    rw [he, h2]
    have hdd : n / 10 < 10 := by omega
    have hdm : n % 10 < 10 := Nat.mod_lt n (by norm_num)
    refine ⟨?_, by simp, ?_, rfl⟩
    · intro c hc
      rw [List.mem_cons, List.mem_singleton] at hc
      rcases hc with rfl | rfl
      · exact digitChar_isDigit hdd
      · exact digitChar_isDigit hdm
    · show digitsVal ([digitChar (n / 10)] ++ [digitChar (n % 10)]) = n
      rw [digitsVal_snoc]
      have : digitsVal [digitChar (n / 10)] = n / 10 := by
        show digitsVal ([] ++ [digitChar (n / 10)]) = n / 10
        rw [digitsVal_snoc]
        simp [digitsVal, charVal_digitChar hdd]
      rw [this, charVal_digitChar hdm]
      omega

/-! ### Truncated division facts -/

lemma neg_tmod_hundred (w : Int) : (-w).tmod 100 = -(w.tmod 100) := by
  rw [Int.tmod_def, Int.tmod_def, Int.neg_tdiv]
  ring

lemma tmod100_bounds (v : Int) : -99 ≤ v.tmod 100 ∧ v.tmod 100 ≤ 99 ∧
    (0 ≤ v → 0 ≤ v.tmod 100) ∧ (v ≤ 0 → v.tmod 100 ≤ 0) := by
  rcases le_or_lt 0 v with h | h
  · have h1 : 0 ≤ v.tmod 100 := Int.tmod_nonneg 100 h
    have h2 : v.tmod 100 < 100 := Int.tmod_lt_of_pos v (by norm_num)
    refine ⟨by omega, by omega, fun _ => h1, fun hv => ?_⟩
    have hv0 : v = 0 := le_antisymm hv h
    simp [hv0]
  · have h0 : 0 ≤ -v := by omega
    have h1 : 0 ≤ (-v).tmod 100 := Int.tmod_nonneg 100 h0
    have h2 : (-v).tmod 100 < 100 := Int.tmod_lt_of_pos _ (by norm_num)
    have h3 : (-v).tmod 100 = -(v.tmod 100) := neg_tmod_hundred v
    exact ⟨by omega, by omega, fun hv => by omega, fun _ => by omega⟩

/-! ### wrap32 facts -/

lemma wrap32_eq_self {n : Int} (h : inRange n) : wrap32 n = n := by
  unfold inRange i32min i32max at h
  unfold wrap32
  omega

lemma Currency.val_inj {a b : Currency} (h : a.val = b.val) : a = b := by
  cases a
  cases b
  exact congrArg Currency.mk h

/-- C7: for all i32-representable Currency values a and b, a - a = 0,
a + a - a = a, a + b - b = a, b + a - a = b, and the compound assignment
operators leave their target equal to the result of the corresponding
non-assigning operator. -/
theorem currency_add_sub_laws (a b : Currency) (ha : inRange a.val) (hb : inRange b.val) :
    a.sub a = ⟨0⟩ ∧ (a.add a).sub a = a ∧ (a.add b).sub b = a ∧ (b.add a).sub a = b ∧
      a.add_assign b = a.add b ∧ a.sub_assign b = a.sub b := by
  unfold inRange i32min i32max at ha hb
  refine ⟨?_, ?_, ?_, ?_, rfl, rfl⟩
  · exact Currency.val_inj (show wrap32 (a.val - a.val) = 0 by unfold wrap32; omega)
  · exact Currency.val_inj
      (show wrap32 (wrap32 (a.val + a.val) - a.val) = a.val by unfold wrap32; omega)
  · exact Currency.val_inj
      (show wrap32 (wrap32 (a.val + b.val) - b.val) = a.val by unfold wrap32; omega)
  · exact Currency.val_inj
      (show wrap32 (wrap32 (b.val + a.val) - a.val) = b.val by unfold wrap32; omega)

/-- Witness for C7 at a = 3.00, b = -5.00. -/
theorem currency_add_sub_laws_witness :
    Currency.sub ⟨300⟩ ⟨300⟩ = ⟨0⟩ ∧ (Currency.add ⟨300⟩ ⟨300⟩).sub ⟨300⟩ = ⟨300⟩ ∧
      (Currency.add ⟨300⟩ ⟨-500⟩).sub ⟨-500⟩ = ⟨300⟩ ∧
      (Currency.add ⟨-500⟩ ⟨300⟩).sub ⟨300⟩ = ⟨-500⟩ ∧
      Currency.add_assign ⟨300⟩ ⟨-500⟩ = Currency.add ⟨300⟩ ⟨-500⟩ ∧
      Currency.sub_assign ⟨300⟩ ⟨-500⟩ = Currency.sub ⟨300⟩ ⟨-500⟩ :=
  currency_add_sub_laws ⟨300⟩ ⟨-500⟩ (by decide) (by decide)

/-- C8: equality of Currency values is equality of the backing integers, the
derived strict order is the order of the backing integers and is total, and
Currency(-100) < Currency(0) < Currency(100). -/
theorem currency_order_spec (a b : Currency) :
    (a = b ↔ a.val = b.val) ∧ (Currency.lt a b ↔ a.val < b.val) ∧
      (Currency.lt a b ∨ a = b ∨ Currency.lt b a) ∧
      Currency.lt ⟨-100⟩ ⟨0⟩ ∧ Currency.lt ⟨0⟩ ⟨100⟩ := by
  obtain ⟨av⟩ := a
  obtain ⟨bv⟩ := b
  refine ⟨by simp, Iff.rfl, ?_, by decide, by decide⟩
  rcases lt_trichotomy av bv with h | h | h
  · exact Or.inl h
  · exact Or.inr (Or.inl (by simp [h]))
  · exact Or.inr (Or.inr h)

/-- C9: the stored integer decomposes exactly as whole * 100 + fractional,
the fractional part lies in -99..99 with the sign of the stored integer, and
the whole part is the magnitude quotient by 100 with the sign of the value
(truncation toward zero). -/
theorem currency_whole_fractional_spec (c : Currency) :
    c.whole * 100 + c.fractional = c.val ∧
      -99 ≤ c.fractional ∧ c.fractional ≤ 99 ∧
      (0 ≤ c.val → 0 ≤ c.fractional) ∧ (c.val ≤ 0 → c.fractional ≤ 0) ∧
      c.whole.natAbs = c.val.natAbs / 100 := by
  obtain ⟨hb1, hb2, hb3, hb4⟩ := tmod100_bounds c.val
  refine ⟨?_, hb1, hb2, hb3, hb4, ?_⟩
  · have := Int.tdiv_add_tmod c.val 100
    unfold Currency.whole Currency.fractional
    omega
  · unfold Currency.whole
    rw [Int.natAbs_tdiv]
    rfl

/-! ### Fraction-capture processing -/

lemma digitsVal_singleton (a : Char) : digitsVal [a] = charVal a := by
  show digitsVal ([] ++ [a]) = charVal a
  rw [digitsVal_snoc]
  simp [digitsVal]

lemma digitsVal_pair (a b : Char) : digitsVal [a, b] = charVal a * 10 + charVal b := by
  show digitsVal ([a] ++ [b]) = _
  rw [digitsVal_snoc, digitsVal_singleton]

lemma scaledFrac_none_eval : scaledFrac none = .ok 0 := by rfl

lemma scaledFrac_one_digit (d : Char) : scaledFrac (some [d]) = scaledFrac (some [d, '0']) := by
  by_cases hd : isDigitCh d = true
  · have hlt : charVal d < 10 := charVal_lt_ten hd
    have hp1 : parse_i32 [d] = some ((charVal d : Int)) := by
      unfold parse_i32
      rw [if_pos ⟨by simp, by simp [hd]⟩, digitsVal_singleton,
        if_pos (by unfold i32max; omega)]
    have hall : [d, '0'].all isDigitCh = true := by
      rw [List.all_eq_true]
      intro x hx
      rcases List.mem_cons.mp hx with rfl | hx
      · exact hd
      · rw [List.mem_singleton] at hx
        subst hx
        decide
    have hp2 : parse_i32 [d, '0'] = some ((charVal d : Int) * 10) := by
      unfold parse_i32
      rw [if_pos ⟨by simp, hall⟩, digitsVal_pair,
        show charVal '0' = 0 from by decide]
      rw [if_pos (by unfold i32max; push_cast; omega)]
      exact congrArg some (by push_cast; ring)
    unfold scaledFrac
    simp only [Option.getD_some, hp1, hp2, List.length_cons, List.length_nil]
    norm_num
  · have hp1 : parse_i32 [d] = none := by
      unfold parse_i32
      rw [if_neg]
      rintro ⟨-, hall⟩
      rw [List.all_eq_true] at hall
      exact hd (hall d (List.mem_cons_self d []))
    have hp2 : parse_i32 [d, '0'] = none := by
      unfold parse_i32
      rw [if_neg]
      rintro ⟨-, hall⟩
      rw [List.all_eq_true] at hall
      exact hd (hall d (List.mem_cons_self d ['0']))
    unfold scaledFrac
    simp only [Option.getD_some, hp1, hp2]

/-- C5: a one-digit fraction denotes tenths: any parse whose fraction capture
is the single digit d gives the same result as one whose capture is d followed
by 0; a missing fraction capture behaves as the capture 00; and "3.5" and
"3.50" both parse to 350 hundredths. -/
theorem currency_one_digit_scaling :
    (∀ s t : List Char, ∀ neg : Bool, ∀ wS : List Char, ∀ d : Char,
        matchCurrency (trim s) = some (neg, wS, some [d]) →
        matchCurrency (trim t) = some (neg, wS, some [d, '0']) →
        Currency.from_str s = Currency.from_str t) ∧
      (∀ s t : List Char, ∀ neg : Bool, ∀ wS : List Char,
        matchCurrency (trim s) = some (neg, wS, none) →
        matchCurrency (trim t) = some (neg, wS, some ['0', '0']) →
        Currency.from_str s = Currency.from_str t) ∧
      Currency.from_str ("3.5".data) = .ok ⟨350⟩ ∧
      Currency.from_str ("3.50".data) = .ok ⟨350⟩ := by
  refine ⟨?_, ?_, by decide, by decide⟩
  · intro s t neg wS d hs ht
    unfold Currency.from_str
    rw [hs, ht]
    simp only [scaledFrac_one_digit d]
  · intro s t neg wS hs ht
    unfold Currency.from_str
    rw [hs, ht]
    simp only [show scaledFrac none = scaledFrac (some ['0', '0']) from rfl]

/-- Witness for C5: parsing "3.5" and parsing "3.50" agree. -/
theorem currency_one_digit_scaling_witness :
    Currency.from_str ("3.5".data) = Currency.from_str ("3.50".data) :=
  currency_one_digit_scaling.1 ("3.5".data) ("3.50".data) false ['3'] '5'
    (by decide) (by decide)

/-- C6: the display string is a leading '-' exactly when the stored integer is
negative, then the decimal digits of the absolute whole part, then -- exactly
when the fractional part is non-zero -- a '.' and two digits denoting the
absolute fractional value; raw 500 renders "5", 512 renders "5.12" and -512
renders "-5.12". -/
theorem currency_fmt_spec (v : Int) :
    (∃ ds fp, Currency.fmt ⟨v⟩ = (if v < 0 then ['-'] else []) ++ ds ++ fp ∧
        ds ≠ [] ∧ (∀ c ∈ ds, isDigitCh c = true) ∧
        digitsVal ds = (Currency.whole ⟨v⟩).natAbs ∧
        (Currency.fractional ⟨v⟩ = 0 → fp = []) ∧
        (Currency.fractional ⟨v⟩ ≠ 0 → ∃ a b, fp = ['.', a, b] ∧
          isDigitCh a = true ∧ isDigitCh b = true ∧
          charVal a * 10 + charVal b = (Currency.fractional ⟨v⟩).natAbs)) ∧
      Currency.fmt ⟨500⟩ = ['5'] ∧ Currency.fmt ⟨512⟩ = ['5', '.', '1', '2'] ∧
      Currency.fmt ⟨-512⟩ = ['-', '5', '.', '1', '2'] := by
  refine ⟨?_, by decide, by decide, by decide⟩
  obtain ⟨hd, hn, hv⟩ := natDigits_spec (Currency.whole ⟨v⟩).natAbs
  have hf100 : (Currency.fractional ⟨v⟩).natAbs < 100 := by
    have := tmod100_bounds v
    have he : Currency.fractional ⟨v⟩ = v.tmod 100 := rfl
    rw [he]
    omega
  by_cases hfz : Currency.fractional ⟨v⟩ = 0
  · refine ⟨natDigits (Currency.whole ⟨v⟩).natAbs, [], ?_, hn, hd, hv, fun _ => rfl,
      fun h => absurd hfz h⟩
    unfold Currency.fmt
    simp [hfz]
  · obtain ⟨fd, fn, fv, fl⟩ := fmt02_spec (Currency.fractional ⟨v⟩).natAbs hf100
    refine ⟨natDigits (Currency.whole ⟨v⟩).natAbs, '.' :: fmt02 (Currency.fractional ⟨v⟩).natAbs,
      ?_, hn, hd, hv, fun h => absurd h hfz, fun _ => ?_⟩
    · unfold Currency.fmt
      simp [hfz]
    · obtain ⟨a, b, hx⟩ : ∃ a b, fmt02 (Currency.fractional ⟨v⟩).natAbs = [a, b] := by
        rcases hy : fmt02 (Currency.fractional ⟨v⟩).natAbs with _ | ⟨a, _ | ⟨b, _ | ⟨c, r⟩⟩⟩
        · rw [hy] at fl
          exact absurd fl (by simp)
        · rw [hy] at fl
          exact absurd fl (by simp)
        · exact ⟨a, b, rfl⟩
        · rw [hy] at fl
          exact absurd fl (by simp)
      rw [hx] at fv fd
      refine ⟨a, b, by rw [hx], fd a (by simp), fd b (by simp), ?_⟩
      rw [← digitsVal_pair, fv]

/-! ### Evaluating the regex match -/

lemma negSplit_recon (t : List Char) :
    t = (if (negSplit t).1 then ['-'] else []) ++ (negSplit t).2 := by
  cases t with
  | nil => rfl
  | cons c r =>
    by_cases hc : c = '-'
    · subst hc
      simp [negSplit]
    · simp [negSplit, hc]

lemma negSplit_dash (r : List Char) : negSplit ('-' :: r) = (true, r) := by
  simp [negSplit]

lemma negSplit_not_dash {c : Char} (r : List Char) (h : c ≠ '-') :
    negSplit (c :: r) = (false, c :: r) := by
  simp [negSplit, h]

lemma takeWhile_all_self {p : Char → Bool} {l : List Char} (h : ∀ c ∈ l, p c = true) :
    l.takeWhile p = l := by
  have := takeWhile_append_all (p := p) ([] : List Char) h
  simpa using this

lemma dropWhile_all_nil {p : Char → Bool} {l : List Char} (h : ∀ c ∈ l, p c = true) :
    l.dropWhile p = [] := by
  have := dropWhile_append_all (p := p) ([] : List Char) h
  simpa using this

lemma matchCurrency_eval_nofrac {b : Bool} {ws t : List Char} {d0 : Char} {ds' : List Char}
    (hns : negSplit t = (b, ws ++ (d0 :: ds')))
    (hws : ∀ c ∈ ws, wsChar c = true)
    (hdsd : ∀ c ∈ d0 :: ds', isDigitCh c = true) :
    matchCurrency t = some (b, d0 :: ds', none) := by
  have hdrop1 : ((negSplit t).2).dropWhile wsChar = d0 :: ds' := by
    rw [hns]
    show (ws ++ (d0 :: ds')).dropWhile wsChar = d0 :: ds'
    rw [dropWhile_append_all _ hws, List.dropWhile_cons,
      isDigitCh_not_ws (hdsd d0 (by simp))]
    simp
  unfold matchCurrency
  rw [hdrop1, takeWhile_all_self hdsd, dropWhile_all_nil hdsd, if_neg (by simp), hns]

lemma matchCurrency_eval_frac {b : Bool} {ws t es : List Char} {d0 : Char} {ds' : List Char}
    (hns : negSplit t = (b, ws ++ (d0 :: ds') ++ '.' :: es))
    (hws : ∀ c ∈ ws, wsChar c = true)
    (hdsd : ∀ c ∈ d0 :: ds', isDigitCh c = true)
    (hes : es ≠ []) (hesd : ∀ c ∈ es, isDigitCh c = true) :
    matchCurrency t = some (b, d0 :: ds', some es) := by
  have hdrop1 : ((negSplit t).2).dropWhile wsChar = (d0 :: ds') ++ '.' :: es := by
    rw [hns]
    show (ws ++ (d0 :: ds') ++ '.' :: es).dropWhile wsChar = _
    rw [List.append_assoc, dropWhile_append_all _ hws, List.cons_append, List.dropWhile_cons,
      isDigitCh_not_ws (hdsd d0 (by simp))]
    simp
  have htake : ((d0 :: ds') ++ '.' :: es).takeWhile isDigitCh = d0 :: ds' := by
    rw [takeWhile_append_all _ hdsd, List.takeWhile_cons,
      show isDigitCh '.' = false from by decide]
    simp
  have hdropd : ((d0 :: ds') ++ '.' :: es).dropWhile isDigitCh = '.' :: es := by
    rw [dropWhile_append_all _ hdsd, List.dropWhile_cons,
      show isDigitCh '.' = false from by decide]
    simp
  unfold matchCurrency
  rw [hdrop1, htake, hdropd, if_neg (by simp), hns]
  split
  · next heq => exact absurd heq (by simp)
  · next fr heq =>
    have hfe : fr = es := by
      injection heq with h1 h2
      exact h2.symm
    subst hfe
    rw [if_pos ⟨hes, List.all_eq_true.mpr hesd⟩]
  · next h1 h2 => exact absurd rfl (h2 es)

lemma grammarOk_of_match {t : List Char} {r : Bool × List Char × Option (List Char)}
    (h : matchCurrency t = some r) : grammarOk t := by
  have hrecon := negSplit_recon t
  have hsgn : (if (negSplit t).1 then ['-'] else []) = [] ∨
      (if (negSplit t).1 then ['-'] else []) = ['-'] := by
    cases (negSplit t).1
    · exact Or.inl rfl
    · exact Or.inr rfl
  have hsplit2 : (negSplit t).2 =
      ((negSplit t).2.takeWhile wsChar) ++ ((negSplit t).2.dropWhile wsChar) :=
    (List.takeWhile_append_dropWhile wsChar _).symm
  have hsplit3 : (negSplit t).2.dropWhile wsChar =
      (((negSplit t).2.dropWhile wsChar).takeWhile isDigitCh) ++
        (((negSplit t).2.dropWhile wsChar).dropWhile isDigitCh) :=
    (List.takeWhile_append_dropWhile isDigitCh _).symm
  unfold matchCurrency at h
  by_cases hw : (((negSplit t).2.dropWhile wsChar).takeWhile isDigitCh) = []
  · rw [if_pos hw] at h
    exact absurd h (by simp)
  · rw [if_neg hw] at h
    split at h
    · next hr =>
      refine ⟨(if (negSplit t).1 then ['-'] else []), (negSplit t).2.takeWhile wsChar,
        ((negSplit t).2.dropWhile wsChar).takeWhile isDigitCh, [], ?_, hsgn,
        fun c hc => List.mem_takeWhile_imp hc, hw,
        fun c hc => List.mem_takeWhile_imp hc, Or.inl rfl⟩
      have hns2 : (negSplit t).2 = ((negSplit t).2.takeWhile wsChar) ++
          ((((negSplit t).2.dropWhile wsChar).takeWhile isDigitCh) ++ []) := by
        rw [List.append_nil]
        conv_lhs => rw [hsplit2]
        congr 1
        conv_lhs => rw [hsplit3]
        rw [hr, List.append_nil]
      conv_lhs => rw [hrecon]
      conv_lhs => rw [hns2]
      simp [List.append_assoc]
    · next fr hr =>
      split at h
      · next hcond =>
        refine ⟨(if (negSplit t).1 then ['-'] else []), (negSplit t).2.takeWhile wsChar,
          ((negSplit t).2.dropWhile wsChar).takeWhile isDigitCh, '.' :: fr, ?_, hsgn,
          fun c hc => List.mem_takeWhile_imp hc, hw,
          fun c hc => List.mem_takeWhile_imp hc,
          Or.inr ⟨fr, rfl, hcond.1, fun c hc => List.all_eq_true.mp hcond.2 c hc⟩⟩
        have hns2 : (negSplit t).2 = ((negSplit t).2.takeWhile wsChar) ++
            ((((negSplit t).2.dropWhile wsChar).takeWhile isDigitCh) ++ '.' :: fr) := by
          conv_lhs => rw [hsplit2]
          congr 1
          conv_lhs => rw [hsplit3]
          rw [hr]
        conv_lhs => rw [hrecon]
        conv_lhs => rw [hns2]
        simp [List.append_assoc]
      · next => exact absurd h (by simp)
    · next => exact absurd h (by simp)

lemma negSplit_eval {sgn : List Char} (rest : List Char) (hsgn : sgn = [] ∨ sgn = ['-'])
    (hhead : ∀ c l, rest = c :: l → c ≠ '-') :
    ∃ b, negSplit (sgn ++ rest) = (b, rest) := by
  rcases hsgn with rfl | rfl
  · rcases rest with _ | ⟨c, l⟩
    · exact ⟨false, rfl⟩
    · exact ⟨false, by rw [List.nil_append, negSplit_not_dash _ (hhead c l rfl)]⟩
  · exact ⟨true, by rw [show ['-'] ++ rest = '-' :: rest from rfl, negSplit_dash]⟩

lemma match_of_grammarOk {t : List Char} (h : grammarOk t) : matchCurrency t ≠ none := by
  obtain ⟨sgn, ws, ds, fr, rfl, hsgn, hws, hds, hdsd, hfr⟩ := h
  obtain ⟨d0, ds', rfl⟩ : ∃ d0 ds', ds = d0 :: ds' := by
    rcases ds with _ | ⟨d0, ds'⟩
    · exact absurd rfl hds
    · exact ⟨d0, ds', rfl⟩
  have hd0 : isDigitCh d0 = true := hdsd d0 (by simp)
  have ht : sgn ++ ws ++ (d0 :: ds') ++ fr = sgn ++ (ws ++ (d0 :: ds') ++ fr) := by
    simp [List.append_assoc]
  rw [ht]
  have hhead : ∀ c l, ws ++ (d0 :: ds') ++ fr = c :: l → c ≠ '-' := by
    intro c l heq
    rcases ws with _ | ⟨w0, ws'⟩
    · simp only [List.nil_append, List.cons_append] at heq
      injection heq with h1 _
      rw [← h1]
      exact isDigitCh_ne_dash hd0
    · simp only [List.cons_append] at heq
      injection heq with h1 _
      rw [← h1]
      intro hcd
      have hw0 : wsChar w0 = true := hws w0 (by simp)
      rw [hcd] at hw0
      exact absurd hw0 (by decide)
  obtain ⟨b, hns⟩ := negSplit_eval (ws ++ (d0 :: ds') ++ fr) hsgn hhead
  rcases hfr with rfl | ⟨es, rfl, hes, hesd⟩
  · simp only [List.append_nil] at hns ⊢
    rw [matchCurrency_eval_nofrac hns hws hdsd]
    simp
  · rw [matchCurrency_eval_frac hns hws hdsd hes hesd]
    simp

lemma matchCurrency_none_iff (t : List Char) : matchCurrency t = none ↔ ¬ grammarOk t := by
  constructor
  · intro h hg
    exact match_of_grammarOk hg h
  · intro hg
    rcases hm : matchCurrency t with _ | r
    · rfl
    · exact absurd (grammarOk_of_match hm) hg

lemma scaledFrac_ne_matchFailed (frS : Option (List Char)) :
    scaledFrac frS ≠ .error .MatchFailed := by
  unfold scaledFrac
  rcases hp : parse_i32 (frS.getD ['0', '0']) with _ | f0 <;> simp only [hp]
  · intro hc
    injection hc with hc'
    exact CurrencyParseError.noConfusion hc'
  · split <;> split <;> intro hc
    · injection hc with hc'
      exact CurrencyParseError.noConfusion hc'
    · exact Except.noConfusion hc
    · injection hc with hc'
      exact CurrencyParseError.noConfusion hc'
    · exact Except.noConfusion hc

lemma from_str_eval (s : List Char) {neg : Bool} {wS : List Char} {frS : Option (List Char)}
    (hm : matchCurrency (trim s) = some (neg, wS, frS)) :
    Currency.from_str s =
      (match parse_i32 wS with
       | none => .error .IntegerOverflow
       | some whole =>
         match scaledFrac frS with
         | .error e => .error e
         | .ok frac =>
           match combineNum neg whole frac with
           | none => .error .IntegerOverflow
           | some num => .ok ⟨num⟩) := by
  unfold Currency.from_str
  rw [hm]

lemma from_str_matchFailed_iff (s : List Char) :
    Currency.from_str s = .error .MatchFailed ↔ matchCurrency (trim s) = none := by
  rcases hm : matchCurrency (trim s) with _ | ⟨neg, wS, frS⟩
  · unfold Currency.from_str
    rw [hm]
    simp
  · rw [from_str_eval s hm]
    constructor
    · intro h
      exfalso
      rcases hw : parse_i32 wS with _ | w
      · rw [hw] at h
        have he : (Except.error CurrencyParseError.IntegerOverflow :
            Except CurrencyParseError Currency) = .error .MatchFailed := h
        injection he with he'
        exact CurrencyParseError.noConfusion he'
      · rw [hw] at h
        rcases hsf : scaledFrac frS with e | f
        · rw [hsf] at h
          have he : (Except.error e : Except CurrencyParseError Currency) =
              .error .MatchFailed := h
          injection he with he'
          exact scaledFrac_ne_matchFailed frS (by rw [hsf, he'])
        · rw [hsf] at h
          have h2 : (match combineNum neg w f with
              | none => (Except.error CurrencyParseError.IntegerOverflow :
                  Except CurrencyParseError Currency)
              | some num => Except.ok ⟨num⟩) = Except.error CurrencyParseError.MatchFailed := h
          rcases hc : combineNum neg w f with _ | num <;> rw [hc] at h2
          · injection h2 with h2'
            exact CurrencyParseError.noConfusion h2'
          · exact Except.noConfusion h2
    · intro h
      exact absurd h (by simp)

/-- C2 (amended): after trimming, a parse fails with MatchFailed exactly when
the trimmed string is not of the shape: optional '-', then an optional
whitespace run (admitted by the regex fragment between the sign and the
digits), then one or more digits, then optionally '.' and one or more
digits.  In particular every successful parse has that shape, and the inputs
"123.-3", "-123.-23", "123.-123" and "0.0.0" all fail with MatchFailed. -/
theorem currency_matchFailed_iff :
    (∀ s : List Char, Currency.from_str s = .error .MatchFailed ↔ ¬ grammarOk (trim s)) ∧
      Currency.from_str ("123.-3".data) = .error .MatchFailed ∧
      Currency.from_str ("-123.-23".data) = .error .MatchFailed ∧
      Currency.from_str ("123.-123".data) = .error .MatchFailed ∧
      Currency.from_str ("0.0.0".data) = .error .MatchFailed := by
  refine ⟨fun s => ?_, by decide, by decide, by decide, by decide⟩
  rw [from_str_matchFailed_iff, matchCurrency_none_iff]

/-- Counterexample to C2 as stated: the trimmed input "- 5" contains a space,
which is neither a sign, a digit nor a decimal point, yet parsing succeeds
(with value -5.00) instead of failing with MatchFailed. -/
theorem currency_sign_whitespace_counterexample :
    Currency.from_str ['-', ' ', '5'] = .ok ⟨-500⟩ ∧ ' ' ∈ trim ['-', ' ', '5'] ∧
      isDigitCh ' ' = false ∧ ' ' ≠ '-' ∧ ' ' ≠ '.' := by
  refine ⟨by decide, by decide, by decide, by decide, by decide⟩

/-- C3 (amended): when the input matches the regex and the fractional part
passes its checks with value frac, any overflow in the whole-part parse, in
whole * 100, in the addition of frac, or in the final negation makes the parse
fail with IntegerOverflow (if the fractional range check fails instead, that
error takes precedence over the combine-stage overflow). -/
theorem currency_overflow_amended (s : List Char) (neg : Bool) (wS : List Char)
    (frS : Option (List Char)) (w frac : Int)
    (hm : matchCurrency (trim s) = some (neg, wS, frS))
    (hover : parse_i32 wS = none ∨
      (parse_i32 wS = some w ∧ scaledFrac frS = .ok frac ∧ combineNum neg w frac = none)) :
    Currency.from_str s = .error .IntegerOverflow := by
  rcases hover with hp | ⟨hp, hsf, hc⟩
  · rw [from_str_eval s hm, hp]
  · have h2 : Currency.from_str s = (match combineNum neg w frac with
        | none => (Except.error CurrencyParseError.IntegerOverflow :
            Except CurrencyParseError Currency)
        | some num => Except.ok ⟨num⟩) := by
      rw [from_str_eval s hm, hp, hsf]
    rw [h2, hc]

/-- Witness for C3: "21474837" parses its whole part to 21474837, whose
product with 100 exceeds i32::MAX, so parsing fails with IntegerOverflow. -/
theorem currency_overflow_witness :
    Currency.from_str ("21474837".data) = .error .IntegerOverflow :=
  currency_overflow_amended ("21474837".data) false ("21474837".data) none 21474837 0
    (by decide) (Or.inr ⟨by decide, by rfl, by decide⟩)

/-- Counterexample to C3 as stated: for "21474837.100" the whole part parses
to a value whose product with 100 overflows i32, yet the parse fails with
FracGreaterThan99, not IntegerOverflow, because the fractional range check
runs before the checked combine. -/
theorem currency_overflow_counterexample :
    matchCurrency (trim ("21474837.100".data)) =
        some (false, "21474837".data, some ("100".data)) ∧
      parse_i32 ("21474837".data) = some 21474837 ∧
      ¬ inRange (21474837 * 100) ∧
      Currency.from_str ("21474837.100".data) = .error .FracGreaterThan99 := by
  refine ⟨by decide, by decide, by decide, by decide⟩

/-- C4 (amended): when the input matches the regex and both the whole-part
digits and the fractional digits parse within i32, a scaled fractional value
outside 0..100 makes the parse fail with FracGreaterThan99 (if either digit
run itself overflows i32, IntegerOverflow is returned instead). -/
theorem currency_fracRange_amended (s : List Char) (neg : Bool) (wS : List Char)
    (frS : Option (List Char)) (w f0 : Int)
    (hm : matchCurrency (trim s) = some (neg, wS, frS))
    (hw : parse_i32 wS = some w)
    (hf : parse_i32 (frS.getD ['0', '0']) = some f0)
    (hout : ¬ (0 ≤ (if (frS.getD ['0', '0']).length = 1 then f0 * 10 else f0) ∧
      (if (frS.getD ['0', '0']).length = 1 then f0 * 10 else f0) < 100)) :
    Currency.from_str s = .error .FracGreaterThan99 := by
  have hsf : scaledFrac frS = .error .FracGreaterThan99 := by
    unfold scaledFrac
    simp only [hf]
    rw [if_pos hout]
  rw [from_str_eval s hm, hw, hsf]

/-- Witness for C4: "123.123" fails with FracGreaterThan99. -/
theorem currency_fracRange_witness :
    Currency.from_str ("123.123".data) = .error .FracGreaterThan99 :=
  currency_fracRange_amended ("123.123".data) false ("123".data) (some ("123".data)) 123 123
    (by decide) (by decide) (by decide) (by decide)

/-- Counterexample to C4 as stated: "9999999999.100" matches the grammar and
its fractional part denotes 100, outside 0..100, yet the parse fails with
IntegerOverflow (from the whole-part parse), not FracGreaterThan99. -/
theorem currency_fracRange_counterexample :
    matchCurrency (trim ("9999999999.100".data)) =
        some (false, "9999999999".data, some ("100".data)) ∧
      digitsVal ("100".data) = 100 ∧
      Currency.from_str ("9999999999.100".data) = .error .IntegerOverflow := by
  refine ⟨by decide, by decide, by decide⟩

/-- C10: for the grammar-matching input "1.9999999999" the fractional digit
run denotes 9999999999, far outside 0..100, but the fractional parse itself
overflows i32 first, so the parse reports IntegerOverflow rather than
FracGreaterThan99. -/
theorem currency_frac_overflow_precedence :
    matchCurrency (trim ("1.9999999999".data)) =
        some (false, ['1'], some ("9999999999".data)) ∧
      digitsVal ("9999999999".data) = 9999999999 ∧
      Currency.from_str ("1.9999999999".data) = .error .IntegerOverflow := by
  refine ⟨by decide, by decide, by decide⟩

/-! ### Round-trip: parsing the display string -/

lemma fractional_natAbs_lt (c : Currency) : c.fractional.natAbs < 100 := by
  have := tmod100_bounds c.val
  have he : c.fractional = c.val.tmod 100 := rfl
  omega

lemma fmt_not_ws (c : Currency) : ∀ ch ∈ Currency.fmt c, wsChar ch = false := by
  intro ch hch
  unfold Currency.fmt at hch
  rcases List.mem_append.mp hch with h1 | h2
  · rcases List.mem_append.mp h1 with ha | hb
    · by_cases hneg : c.val < 0
      · rw [if_pos hneg, List.mem_singleton] at ha
        subst ha
        decide
      · rw [if_neg hneg] at ha
        exact absurd ha (by simp)
    · exact isDigitCh_not_ws ((natDigits_spec _).1 ch hb)
  · by_cases hfz : c.fractional = 0
    · rw [if_neg (by simp [hfz])] at h2
      exact absurd h2 (by simp)
    · rw [if_pos hfz] at h2
      rcases List.mem_cons.mp h2 with rfl | h3
      · decide
      · exact isDigitCh_not_ws ((fmt02_spec _ (fractional_natAbs_lt c)).1 ch h3)

lemma trim_fmt (c : Currency) : trim (Currency.fmt c) = Currency.fmt c :=
  trim_eq_self (fmt_not_ws c)

lemma parse_i32_natDigits {n : Nat} (h : (n : Int) ≤ i32max) :
    parse_i32 (natDigits n) = some ((n : Int)) := by
  obtain ⟨hd, hn, hv⟩ := natDigits_spec n
  unfold parse_i32
  rw [if_pos ⟨hn, List.all_eq_true.mpr hd⟩, hv, if_pos h]

lemma scaledFrac_fmt02 {f : Nat} (h : f < 100) :
    scaledFrac (some (fmt02 f)) = .ok (f : Int) := by
  obtain ⟨fd, fn, fv, fl⟩ := fmt02_spec f h
  have hp : parse_i32 (fmt02 f) = some (f : Int) := by
    unfold parse_i32
    rw [if_pos ⟨fn, List.all_eq_true.mpr fd⟩, fv, if_pos (by unfold i32max; omega)]
  unfold scaledFrac
  simp only [Option.getD_some, hp, fl]
  norm_num
  push_cast
  omega

lemma matchCurrency_fmt (c : Currency) :
    matchCurrency (Currency.fmt c) = some (decide (c.val < 0), natDigits c.whole.natAbs,
      if c.fractional = 0 then none else some (fmt02 c.fractional.natAbs)) := by
  obtain ⟨hd, hn, hv⟩ := natDigits_spec c.whole.natAbs
  obtain ⟨fd, fn, fv, fl⟩ := fmt02_spec c.fractional.natAbs (fractional_natAbs_lt c)
  obtain ⟨d0, ds', hnd⟩ : ∃ d0 ds', natDigits c.whole.natAbs = d0 :: ds' := by
    rcases hx : natDigits c.whole.natAbs with _ | ⟨d0, ds'⟩
    · exact absurd hx hn
    · exact ⟨d0, ds', rfl⟩
  have hd' : ∀ ch ∈ d0 :: ds', isDigitCh ch = true := by
    rw [← hnd]
    exact hd
  have hd0 : isDigitCh d0 = true := hd' d0 (by simp)
  by_cases hfz : c.fractional = 0
  · have hfmt : Currency.fmt c = (if c.val < 0 then ['-'] else []) ++ (d0 :: ds') := by
      unfold Currency.fmt
      rw [if_neg (show ¬ (c.fractional ≠ 0) from by simp [hfz]), List.append_nil, hnd]
    rw [if_pos hfz, hnd]
    by_cases hneg : c.val < 0
    · rw [decide_eq_true hneg]
      have hns : negSplit (Currency.fmt c) = (true, [] ++ (d0 :: ds')) := by
        rw [hfmt, if_pos hneg,
          show (['-'] : List Char) ++ (d0 :: ds') = '-' :: (d0 :: ds') from rfl, negSplit_dash]
        try simp
      exact matchCurrency_eval_nofrac hns (by simp) hd'
    · rw [decide_eq_false hneg]
      have hns : negSplit (Currency.fmt c) = (false, [] ++ (d0 :: ds')) := by
        rw [hfmt, if_neg hneg, List.nil_append,
          negSplit_not_dash _ (isDigitCh_ne_dash hd0)]
        try simp
      exact matchCurrency_eval_nofrac hns (by simp) hd'
  · have hfmt : Currency.fmt c = ((if c.val < 0 then ['-'] else []) ++ (d0 :: ds')) ++
        ('.' :: fmt02 c.fractional.natAbs) := by
      unfold Currency.fmt
      rw [if_pos hfz, hnd]
    rw [if_neg hfz, hnd]
    by_cases hneg : c.val < 0
    · rw [decide_eq_true hneg]
      have hns : negSplit (Currency.fmt c) =
          (true, ([] ++ (d0 :: ds')) ++ ('.' :: fmt02 c.fractional.natAbs)) := by
        rw [hfmt, if_pos hneg,
          show ((['-'] : List Char) ++ (d0 :: ds')) ++ ('.' :: fmt02 c.fractional.natAbs) =
            '-' :: ((d0 :: ds') ++ ('.' :: fmt02 c.fractional.natAbs)) from rfl, negSplit_dash]
        try simp
      exact matchCurrency_eval_frac hns (by simp) hd' fn fd
    · rw [decide_eq_false hneg]
      have hns : negSplit (Currency.fmt c) =
          (false, ([] ++ (d0 :: ds')) ++ ('.' :: fmt02 c.fractional.natAbs)) := by
        rw [hfmt, if_neg hneg, List.nil_append,
          show ((d0 :: ds') : List Char) ++ ('.' :: fmt02 c.fractional.natAbs) =
            d0 :: (ds' ++ ('.' :: fmt02 c.fractional.natAbs)) from rfl,
          negSplit_not_dash _ (isDigitCh_ne_dash hd0)]
        try simp
      exact matchCurrency_eval_frac hns (by simp) hd' fn fd

lemma combineNum_eval {neg : Bool} {w f v : Int}
    (hw : i32min ≤ w * 100 ∧ w * 100 ≤ i32max)
    (hwf : i32min ≤ w * 100 + f ∧ w * 100 + f ≤ i32max)
    (hv : i32min ≤ v ∧ v ≤ i32max)
    (hres : (if neg then -(w * 100 + f) else w * 100 + f) = v) :
    combineNum neg w f = some v := by
  unfold combineNum checked_i32
  rw [if_pos hw]
  show (if i32min ≤ w * 100 + f ∧ w * 100 + f ≤ i32max then some (w * 100 + f)
    else none).bind (fun m => if neg then
      (if i32min ≤ -m ∧ -m ≤ i32max then some (-m) else none) else some m) = some v
  rw [if_pos hwf]
  show (if neg then (if i32min ≤ -(w * 100 + f) ∧ -(w * 100 + f) ≤ i32max then
    some (-(w * 100 + f)) else none) else some (w * 100 + f)) = some v
  cases neg
  · have hres' : w * 100 + f = v := by simpa using hres
    simp [hres']
  · have hres' : -(w * 100 + f) = v := by simpa using hres
    rw [hres']
    simp [hv]

lemma from_str_eval2 (s : List Char) {neg : Bool} {wS : List Char} {frS : Option (List Char)}
    {w : Int} (hm : matchCurrency (trim s) = some (neg, wS, frS))
    (hw : parse_i32 wS = some w) :
    Currency.from_str s =
      (match scaledFrac frS with
       | .error e => .error e
       | .ok frac =>
         match combineNum neg w frac with
         | none => .error .IntegerOverflow
         | some num => .ok ⟨num⟩) := by
  rw [from_str_eval s hm, hw]

lemma from_str_eval3 (s : List Char) {neg : Bool} {wS : List Char} {frS : Option (List Char)}
    {w frac : Int} (hm : matchCurrency (trim s) = some (neg, wS, frS))
    (hw : parse_i32 wS = some w) (hsf : scaledFrac frS = .ok frac) :
    Currency.from_str s =
      (match combineNum neg w frac with
       | none => .error .IntegerOverflow
       | some num => .ok ⟨num⟩) := by
  rw [from_str_eval2 s hm hw, hsf]

/-- C1 (amended): parsing the display string returns the original value for
every representable Currency value except i32::MIN, i.e. for every backing
integer v with i32::MIN < v ≤ i32::MAX (including 0, values with zero
fractional part, and negative values). -/
theorem currency_roundtrip (v : Int) (h1 : i32min < v) (h2 : v ≤ i32max) :
    Currency.from_str (Currency.fmt ⟨v⟩) = .ok ⟨v⟩ := by
  have hmatch : matchCurrency (trim (Currency.fmt ⟨v⟩)) =
      some (decide (v < 0), natDigits (v.tdiv 100).natAbs,
        if v.tmod 100 = 0 then none else some (fmt02 (v.tmod 100).natAbs)) := by
    rw [trim_fmt]
    exact matchCurrency_fmt ⟨v⟩
  have hdt := Int.tdiv_add_tmod v 100
  have hbm := tmod100_bounds v
  unfold i32min at h1
  unfold i32max at h2
  have hwb : ((v.tdiv 100).natAbs : Int) ≤ i32max := by
    unfold i32max
    omega
  have hwparse := parse_i32_natDigits hwb
  by_cases hneg : v < 0
  · rw [decide_eq_true hneg] at hmatch
    by_cases hfz : v.tmod 100 = 0
    · rw [if_pos hfz] at hmatch
      have hc : combineNum true ((v.tdiv 100).natAbs : Int) 0 = some v := by
        apply combineNum_eval
        · unfold i32min i32max
          omega
        · unfold i32min i32max
          omega
        · unfold i32min i32max
          omega
        · simp only [if_true]
          omega
      rw [from_str_eval3 _ hmatch hwparse scaledFrac_none_eval, hc]
    · rw [if_neg hfz] at hmatch
      have hfb : (v.tmod 100).natAbs < 100 := by omega
      have hc : combineNum true ((v.tdiv 100).natAbs : Int) ((v.tmod 100).natAbs : Int) =
          some v := by
        apply combineNum_eval
        · unfold i32min i32max
          omega
        · unfold i32min i32max
          omega
        · unfold i32min i32max
          omega
        · simp only [if_true]
          omega
      rw [from_str_eval3 _ hmatch hwparse (scaledFrac_fmt02 hfb), hc]
  · rw [decide_eq_false hneg] at hmatch
    by_cases hfz : v.tmod 100 = 0
    · rw [if_pos hfz] at hmatch
      have hc : combineNum false ((v.tdiv 100).natAbs : Int) 0 = some v := by
        apply combineNum_eval
        · unfold i32min i32max
          omega
        · unfold i32min i32max
          omega
        · unfold i32min i32max
          omega
        · rw [if_neg (by simp)]
          omega
      rw [from_str_eval3 _ hmatch hwparse scaledFrac_none_eval, hc]
    · rw [if_neg hfz] at hmatch
      have hfb : (v.tmod 100).natAbs < 100 := by omega
      have hc : combineNum false ((v.tdiv 100).natAbs : Int) ((v.tmod 100).natAbs : Int) =
          some v := by
        apply combineNum_eval
        · unfold i32min i32max
          omega
        · unfold i32min i32max
          omega
        · unfold i32min i32max
          omega
        · rw [if_neg (by simp)]
          omega
      rw [from_str_eval3 _ hmatch hwparse (scaledFrac_fmt02 hfb), hc]

/-- Witness for C1: the value -5.12 (raw -512) round-trips. -/
theorem currency_roundtrip_witness :
    Currency.from_str (Currency.fmt ⟨-512⟩) = .ok ⟨-512⟩ :=
  currency_roundtrip (-512) (by decide) (by decide)

/-- Counterexample to C1 as stated: the most negative representable value
i32::MIN renders as "-21474836.48", but parsing that string overflows
(21474836 * 100 + 48 = 2147483648 > i32::MAX) before the negation, so the
round trip fails with IntegerOverflow instead of returning the value. -/
theorem currency_roundtrip_min_counterexample :
    Currency.from_str (Currency.fmt ⟨-2147483648⟩) = .error .IntegerOverflow ∧
      Currency.from_str (Currency.fmt ⟨-2147483648⟩) ≠ .ok ⟨-2147483648⟩ := by
  have hw : (Currency.whole ⟨-2147483648⟩).natAbs = 21474836 := by decide
  have hd : natDigits 21474836 = ['2', '1', '4', '7', '4', '8', '3', '6'] := by
    rw [natDigits_eq_fuel 7 21474836 (by norm_num)]
    decide
  have hf : Currency.fmt ⟨-2147483648⟩ =
      ['-', '2', '1', '4', '7', '4', '8', '3', '6', '.', '4', '8'] := by
    unfold Currency.fmt
    rw [hw, hd]
    decide
  rw [hf]
  exact ⟨by decide, by decide⟩

end LaggIT
